import Mathlib

/-!
Verification of the peer-synchronization layer (peer table and sync manager)
of the theta-protocol-ledger repository, shallowly embedded in Lean 4.

The peer table (`p2p/peer/peer_table.go`) holds three views of the peer set:
an identity map `peerMap`, an address map `addrMap`, and an insertion-ordered
list `peers`.  Go maps are embedded as association lists whose lookup
semantics match map indexing; the `*Peer` and `*NetAddress` pointers are
embedded as `Peer` values carrying an abstract numeric address, and the
mutation performed by `Peer.Stop()` is made observable by returning the list
of peers that were stopped.  The mutex is dropped: every operation is modelled
as the atomic state transformation performed inside its critical section.
-/

namespace ThetaSync

/-- One network peer, as observed through the methods the peer table calls:
`ID()`, `NetAddress()` (abstracted to a numeric address key, standing for the
`*NetAddress` pointer), `IsOutbound()`, `IsSeed()`/`SetSeed`, and `Stop()`
(recorded in the `stopped` flag). -/
structure Peer where
  pid : String
  addr : Nat
  isOutbound : Bool
  isSeed : Bool
  stopped : Bool
deriving DecidableEq, Repr

/-- The `PeerIDAddress` pairs returned by `GetSelection`. -/
structure PeerIDAddress where
  ID : String
  Addr : Nat
deriving DecidableEq, Repr

/-- Association-list lookup, the embedding of Go map indexing `m[k]`. -/
def lookupA {α β : Type} [DecidableEq α] (m : List (α × β)) (k : α) : Option β :=
  match m with
  | [] => none
  | kv :: rest => if kv.1 = k then some kv.2 else lookupA rest k

/-- Whether a Go map contains a key (`_, ok := m[k]`). -/
def containsKeyA {α β : Type} [DecidableEq α] (m : List (α × β)) (k : α) : Bool :=
  m.any fun kv => decide (kv.1 = k)

/-- Go map assignment `m[k] = v`: any previous binding of `k` is replaced. -/
def insertA {α β : Type} [DecidableEq α] (m : List (α × β)) (k : α) (v : β) :
    List (α × β) :=
  (m.filter fun kv => !decide (kv.1 = k)) ++ [(k, v)]

/-- Go map deletion `delete(m, k)`. -/
def eraseA {α β : Type} [DecidableEq α] (m : List (α × β)) (k : α) : List (α × β) :=
  m.filter fun kv => !decide (kv.1 = k)

/-- The `PeerTable` struct: identity map, ordered list, address map
(the mutex field is dropped; operations model the critical sections). -/
structure PeerTable where
  peerMap : List (String × Peer)
  peers : List Peer
  addrMap : List (Nat × Peer)
deriving DecidableEq, Repr

/-- `CreatePeerTable`: empty maps and list. -/
def emptyPeerTable : PeerTable := ⟨[], [], []⟩

/-- Result of `AddPeer`: the new table, the returned boolean, and the peers
on which `Stop()` was called (the observable side effect). -/
structure AddPeerResult where
  table : PeerTable
  ret : Bool
  stopped : List Peer
deriving DecidableEq, Repr

/-- The `for i, p := range pt.peers` loop inside `AddPeer`'s duplicate branch:
at the first entry with a matching ID it stops that entry, transfers the seed
flag onto the new peer when the old entry is outbound, overwrites the slot and
breaks.  Returns the new list, the (possibly seed-updated) new peer, and the
stopped peers. -/
def addLoop : List Peer → Peer → List Peer × Peer × List Peer
  | [], peer => ([], peer, [])
  | p :: rest, peer =>
    if p.pid = peer.pid then
      let peer' := if p.isOutbound then { peer with isSeed := p.isSeed } else peer
      (peer' :: rest, peer', [{ p with stopped := true }])
    else
      match addLoop rest peer with
      | (rest', peer', st) => (p :: rest', peer', st)

/-- `AddPeer`: if the ID already exists in `peerMap`, run the replacement loop,
otherwise append; then assign both maps with the (possibly updated) peer and
return `true`. -/
def AddPeer (pt : PeerTable) (peer : Peer) : AddPeerResult :=
  if containsKeyA pt.peerMap peer.pid then
    match addLoop pt.peers peer with
    | (peers', peer', st) =>
      ⟨{ pt with
          peers := peers'
          peerMap := insertA pt.peerMap peer'.pid peer'
          addrMap := insertA pt.addrMap peer'.addr peer' }, true, st⟩
  else
    ⟨{ pt with
        peers := pt.peers ++ [peer]
        peerMap := insertA pt.peerMap peer.pid peer
        addrMap := insertA pt.addrMap peer.addr peer }, true, []⟩

/-- `DeletePeer`: no-op when the ID is absent; otherwise delete from both maps
and remove every matching entry from the list.  (The Go `range`-with-`append`
removal loop coincides with this filter on lists whose IDs are unique, which
is the case for every list the table ever builds.) -/
def DeletePeer (pt : PeerTable) (peerID : String) : PeerTable :=
  match lookupA pt.peerMap peerID with
  | none => pt
  | some peer =>
    { pt with
        peerMap := eraseA pt.peerMap peerID
        addrMap := eraseA pt.addrMap peer.addr
        peers := pt.peers.filter fun p => !decide (p.pid = peerID) }

/-- `PurgeOldestPeer`: the forward scan `for idx, pr := range pt.peers`
keeps overwriting `peer` with every non-seed entry, so it ends on the last
non-seed entry; if one was found its ID is deleted from `peerMap` and the
head of the list is dropped (`pt.peers = pt.peers[1:]`); `addrMap` is never
touched. -/
def PurgeOldestPeer (pt : PeerTable) : PeerTable × Option Peer :=
  match pt.peers.foldl (fun acc pr => if pr.isSeed then acc else some pr)
      (none : Option Peer) with
  | some q => ({ pt with
                  peerMap := eraseA pt.peerMap q.pid
                  peers := pt.peers.drop 1 }, some q)
  | none => (pt, none)

/-- A peer-table operation, for stating properties over operation sequences. -/
inductive PTOp where
  | add : Peer → PTOp
  | del : String → PTOp
  | purge : PTOp
deriving DecidableEq, Repr

/-- Apply one operation to a table (projecting away return values). -/
def applyOp (pt : PeerTable) : PTOp → PeerTable
  | .add p => (AddPeer pt p).table
  | .del i => DeletePeer pt i
  | .purge => (PurgeOldestPeer pt).1

/-- Run a sequence of operations from the empty table. -/
def runOps (ops : List PTOp) : PeerTable :=
  ops.foldl applyOp emptyPeerTable

/-- The three-view consistency invariant claimed by the spec: every peer in
the ordered list is found in both maps, and every peer stored in either map
is in the ordered list. -/
def viewsConsistent (pt : PeerTable) : Prop :=
  (∀ p ∈ pt.peers, lookupA pt.peerMap p.pid = some p ∧
      lookupA pt.addrMap p.addr = some p) ∧
  (∀ kv ∈ pt.peerMap, kv.2 ∈ pt.peers) ∧
  (∀ kv ∈ pt.addrMap, kv.2 ∈ pt.peers)

instance (pt : PeerTable) : Decidable (viewsConsistent pt) := by
  unfold viewsConsistent
  infer_instance

/-- The replacement loop of `AddPeer`, evaluated on a list split at the first
entry whose ID matches: it stops exactly that entry, overwrites its slot with
the new peer (carrying the old seed flag when the old entry is outbound), and
leaves everything else in place. -/
theorem addLoop_replace (old peer : Peer) (l₂ : List Peer) :
    ∀ l₁ : List Peer, old.pid = peer.pid → (∀ q ∈ l₁, q.pid ≠ peer.pid) →
      addLoop (l₁ ++ old :: l₂) peer =
        (l₁ ++ (if old.isOutbound then { peer with isSeed := old.isSeed } else peer) :: l₂,
         (if old.isOutbound then { peer with isSeed := old.isSeed } else peer),
         [{ old with stopped := true }]) := by
  intro l₁
  induction l₁ with
  | nil =>
    intro hid _
    simp [addLoop, hid]
  | cons q l rest_ih =>
    intro hid hfirst
    have hq : ¬ (q.pid = peer.pid) := hfirst q (List.mem_cons_self q l)
    have ih := rest_ih hid (fun x hx => hfirst x (List.mem_cons_of_mem q hx))
    simp [addLoop, hq, ih]

/-- Claim C2: for a peer whose identity already exists in the table, `AddPeer`
stops the old peer, inherits the old peer's seed flag exactly when the old
peer was outbound, replaces the old peer in its slot (sequence length
unchanged) and returns `true`; for a fresh identity it appends and returns
`true`. -/
theorem addPeer_spec (pt : PeerTable) (peer : Peer) :
    (containsKeyA pt.peerMap peer.pid = false →
      AddPeer pt peer =
        ⟨{ pt with
            peers := pt.peers ++ [peer]
            peerMap := insertA pt.peerMap peer.pid peer
            addrMap := insertA pt.addrMap peer.addr peer }, true, []⟩) ∧
    (∀ old l₁ l₂,
      containsKeyA pt.peerMap peer.pid = true →
      pt.peers = l₁ ++ old :: l₂ →
      old.pid = peer.pid →
      (∀ q ∈ l₁, q.pid ≠ peer.pid) →
      (AddPeer pt peer).stopped = [{ old with stopped := true }] ∧
      (AddPeer pt peer).table.peers =
        l₁ ++ (if old.isOutbound then { peer with isSeed := old.isSeed } else peer) :: l₂ ∧
      (AddPeer pt peer).table.peers.length = pt.peers.length ∧
      (AddPeer pt peer).ret = true) := by
  constructor
  · intro h
    simp [AddPeer, h]
  · intro old l₁ l₂ hk hsplit hid hfirst
    have hrep := addLoop_replace old peer l₂ l₁ hid hfirst
    simp [AddPeer, hk, hsplit, hrep]

/-- Concrete witness data for claim C2: an outbound seed peer replaced by an
inbound non-seed peer with the same identity. -/
def oldW : Peer := ⟨"x", 1, true, true, false⟩

def newW : Peer := ⟨"x", 2, false, false, false⟩

def ptW : PeerTable := ⟨[("x", oldW)], [oldW], [(1, oldW)]⟩

/-- Witness for claim C2 at a concrete table: the replaced outbound peer is
stopped and its seed flag is carried over to the inbound replacement. -/
theorem addPeer_spec_witness :
    (AddPeer ptW newW).stopped = [{ oldW with stopped := true }] ∧
    (AddPeer ptW newW).table.peers =
      [] ++ (if oldW.isOutbound then { newW with isSeed := oldW.isSeed } else newW) :: [] ∧
    (AddPeer ptW newW).table.peers.length = ptW.peers.length ∧
    (AddPeer ptW newW).ret = true :=
  (addPeer_spec ptW newW).2 oldW [] [] (by decide) (by decide) (by decide) (by decide)

/-- `getLast?` of a cons cell, expressed through the tail's `getLast?`. -/
theorem getLast?_cons_eq {α : Type} (a : α) (xs : List α) :
    (a :: xs).getLast? = some (xs.getLast?.getD a) := by
  induction xs generalizing a with
  | nil => rfl
  | cons x xs ih => simp [List.getLast?_cons_cons, ih]

/-- The overwriting forward scan of `PurgeOldestPeer` computes the last
non-seed entry of the list (and falls back to the initial accumulator). -/
theorem foldl_lastNonSeed :
    ∀ (l : List Peer) (init : Option Peer),
      l.foldl (fun acc pr => if pr.isSeed then acc else some pr) init =
        match (l.filter fun p => !p.isSeed).getLast? with
        | some q => some q
        | none => init := by
  intro l
  induction l with
  | nil => intro init; rfl
  | cons p rest ih =>
    intro init
    cases hps : p.isSeed with
    | true => simp [List.foldl_cons, hps, List.filter_cons, ih]
    | false =>
      rw [List.foldl_cons]
      simp only [hps, Bool.false_eq_true, if_false]
      rw [ih (some p)]
      simp only [List.filter_cons, hps, Bool.not_false, if_true, getLast?_cons_eq]
      cases (rest.filter fun pr => !pr.isSeed).getLast? <;> simp

/-- Claim C3: on a table with at least one non-seed peer, `PurgeOldestPeer`
returns the last non-seed peer found by the forward scan, deletes that peer's
identity-map entry, and drops the head of the ordered list (possibly a
different peer); on a table whose peers are all seeds it returns `none` and
leaves the table unchanged. -/
theorem purgeOldestPeer_spec (pt : PeerTable) :
    ((∀ p ∈ pt.peers, p.isSeed = true) → PurgeOldestPeer pt = (pt, none)) ∧
    (∀ q, (pt.peers.filter fun p => !p.isSeed).getLast? = some q →
      PurgeOldestPeer pt =
        ({ pt with
            peerMap := eraseA pt.peerMap q.pid
            peers := pt.peers.drop 1 }, some q)) := by
  constructor
  · intro hall
    have hfilter : (pt.peers.filter fun p => !p.isSeed) = [] := by
      rw [List.filter_eq_nil_iff]
      intro a ha
      simp [hall a ha]
    unfold PurgeOldestPeer
    rw [foldl_lastNonSeed, hfilter]
    rfl
  · intro q hq
    unfold PurgeOldestPeer
    rw [foldl_lastNonSeed, hq]

/-- Concrete witness data for claim C3: two non-seed peers. -/
def pW1 : Peer := ⟨"a", 1, true, false, false⟩

def pW2 : Peer := ⟨"b", 2, true, false, false⟩

def ptP : PeerTable := ⟨[("a", pW1), ("b", pW2)], [pW1, pW2], [(1, pW1), (2, pW2)]⟩

/-- Witness for claim C3 at a concrete two-peer table: the map entry removed
belongs to the second peer while the list slot dropped holds the first. -/
theorem purgeOldestPeer_spec_witness :
    PurgeOldestPeer ptP =
      ({ ptP with
          peerMap := eraseA ptP.peerMap pW2.pid
          peers := ptP.peers.drop 1 }, some pW2) :=
  (purgeOldestPeer_spec ptP).2 pW2 (by decide)

/-- `getSelectionPercent`: % of total peers known returned by `GetSelection`. -/
def getSelectionPercent : Nat := 23

/-- `minGetSelection`: min peers that must be returned by `GetSelection`. -/
def minGetSelection : Nat := 32

/-- `maxGetSelection`: max peers returned by `GetSelection`. -/
def maxGetSelection : Nat := 250

/-- The parallel assignment `peers[i], peers[j] = peers[j], peers[i]`;
out-of-range indexes leave the list unchanged (they never occur in
`GetSelection`, see `getSelection_safety`). -/
def swapL {α : Type} (l : List α) (i j : Nat) : List α :=
  match l[i]?, l[j]? with
  | some a, some b => (l.set i b).set j a
  | _, _ => l

/-- The partial Fisher-Yates loop of `GetSelection`: at index `i` with `k`
iterations left it swaps slot `i` with slot `j = rand.Intn(len-i) + i`.
The random source is an oracle `r`; `rand.Intn(len-i)` is embedded as
`r i % (len-i)`, which ranges over exactly the same values. -/
def fyShuffle {α : Type} (r : Nat → Nat) : Nat → Nat → List α → List α
  | _, 0, l => l
  | i, k+1, l => fyShuffle r (i+1) k (swapL l i (r i % (l.length - i) + i))

/-- The selection size computed by `GetSelection`:
`MinInt(maxGetSelection, MaxInt(MinInt(minGetSelection, n), n*23/100))`. -/
def selectionSize (n : Nat) : Nat :=
  min maxGetSelection (max (min minGetSelection n) (n * getSelectionPercent / 100))

/-- `GetSelection`: returns nil on an empty table, otherwise partially
shuffles a copy of the peer list and returns the first `numPeers` entries as
(ID, address) pairs.  The first component is the table after the call (the
shuffle works on the copy, so it is the input table unchanged). -/
def GetSelection (pt : PeerTable) (r : Nat → Nat) : PeerTable × List PeerIDAddress :=
  if pt.peers = [] then (pt, [])
  else
    let numPeers := selectionSize pt.peers.length
    let shuffled := fyShuffle r 0 numPeers pt.peers
    (pt, (shuffled.take numPeers).map fun p => ⟨p.pid, p.addr⟩)

/-- Replacing slot `j` (holding `b`) by `a` and re-consing `b` permutes the
original list with `a` consed on. -/
theorem cons_set_perm {α : Type} :
    ∀ (l : List α) (j : Nat) (a b : α), l[j]? = some b →
      List.Perm (b :: l.set j a) (a :: l) := by
  intro l
  induction l with
  | nil => intro j a b h; simp at h
  | cons x xs ih =>
    intro j a b h
    cases j with
    | zero =>
      simp only [List.getElem?_cons_zero, Option.some.injEq] at h
      subst h
      simp only [List.set]
      exact List.Perm.swap a x xs
    | succ m =>
      simp only [List.getElem?_cons_succ] at h
      simp only [List.set]
      exact ((List.Perm.swap x b _).trans ((ih m a b h).cons x)).trans
        (List.Perm.swap a x xs)

/-- A swap is a permutation. -/
theorem swapL_perm {α : Type} : ∀ (l : List α) (i j : Nat), List.Perm (swapL l i j) l := by
  intro l
  induction l with
  | nil => intro i j; simp [swapL]
  | cons x xs ih =>
    intro i j
    cases i with
    | zero =>
      cases j with
      | zero => simp [swapL, List.set]
      | succ m =>
        cases hm : xs[m]? with
        | none => simp [swapL, hm]
        | some b =>
          simp only [swapL, List.getElem?_cons_zero, List.getElem?_cons_succ, hm,
            List.set]
          exact cons_set_perm xs m x b hm
    | succ n =>
      cases hn : xs[n]? with
      | none =>
        cases j with
        | zero => simp [swapL, hn]
        | succ m => simp [swapL, hn]
      | some a =>
        cases j with
        | zero =>
          simp only [swapL, List.getElem?_cons_succ, List.getElem?_cons_zero, hn,
            List.set]
          exact cons_set_perm xs n x a hn
        | succ m =>
          cases hm : xs[m]? with
          | none => simp [swapL, hn, hm]
          | some b =>
            simp only [swapL, List.getElem?_cons_succ, hn, hm, List.set]
            have h2 := ih n m
            simp only [swapL, hn, hm] at h2
            exact h2.cons x

/-- The partial Fisher-Yates shuffle permutes the list. -/
theorem fyShuffle_perm {α : Type} (r : Nat → Nat) :
    ∀ (k i : Nat) (l : List α), List.Perm (fyShuffle r i k l) l := by
  intro k
  induction k with
  | zero => intro i l; exact List.Perm.refl l
  | succ k ih =>
    intro i l
    exact (ih (i+1) (swapL l i (r i % (l.length - i) + i))).trans
      (swapL_perm l i (r i % (l.length - i) + i))

/-- The selection size never exceeds the peer count. -/
theorem selectionSize_le (n : Nat) : selectionSize n ≤ n := by
  unfold selectionSize getSelectionPercent minGetSelection maxGetSelection
  have h23 : n * 23 / 100 ≤ n := by
    have h1 : n * 23 ≤ n * 100 := Nat.mul_le_mul_left n (by norm_num)
    calc n * 23 / 100 ≤ n * 100 / 100 := Nat.div_le_div_right h1
      _ = n := Nat.mul_div_cancel n (by norm_num)
  exact le_trans (Nat.min_le_right _ _) (max_le (Nat.min_le_right 32 n) h23)

/-- Claim C4: `GetSelection` on a non-empty table with `n` peers returns
exactly `min 250 (max (min 32 n) (n*23/100))` (ID, address) pairs, and `[]`
(nil) on an empty table; the operation has no error outcome. -/
theorem getSelection_size (pt : PeerTable) (r : Nat → Nat) :
    (pt.peers = [] → (GetSelection pt r).2 = []) ∧
    (pt.peers ≠ [] →
      ((GetSelection pt r).2).length =
        min 250 (max (min 32 pt.peers.length) (pt.peers.length * 23 / 100))) := by
  constructor
  · intro h
    simp [GetSelection, h]
  · intro h
    have hlen : (fyShuffle r 0 (selectionSize pt.peers.length) pt.peers).length
        = pt.peers.length :=
      (fyShuffle_perm r (selectionSize pt.peers.length) 0 pt.peers).length_eq
    simp only [GetSelection, if_neg h, List.length_map, List.length_take, hlen]
    rw [Nat.min_eq_left (selectionSize_le pt.peers.length)]
    simp [selectionSize, maxGetSelection, minGetSelection, getSelectionPercent]

/-- Random oracle returning 0, so the shuffle is the identity. -/
def rZero : Nat → Nat := fun _ => 0

/-- Concrete three-peer table for the `GetSelection` witnesses. -/
def selPeer1 : Peer := ⟨"s1", 11, true, false, false⟩

def selPeer2 : Peer := ⟨"s2", 12, true, false, false⟩

def selPeer3 : Peer := ⟨"s3", 13, false, true, false⟩

def ptSel : PeerTable :=
  ⟨[("s1", selPeer1), ("s2", selPeer2), ("s3", selPeer3)],
   [selPeer1, selPeer2, selPeer3],
   [(11, selPeer1), (12, selPeer2), (13, selPeer3)]⟩

/-- Witness for claim C4 at a concrete three-peer table. -/
theorem getSelection_size_witness :
    ptSel.peers ≠ [] ∧
    ((GetSelection ptSel rZero).2).length =
      min 250 (max (min 32 ptSel.peers.length) (ptSel.peers.length * 23 / 100)) :=
  ⟨by decide, (getSelection_size ptSel rZero).2 (by decide)⟩

/-- Claim C10: on a non-empty table the computed selection size is at most
the peer count (so the shuffle and the final slice stay in bounds), the
returned pairs are the image of a sub-permutation of the table's peers
(pairwise distinct positions, each a peer present in the table), and the
table's backing list is unchanged. -/
theorem getSelection_safety (pt : PeerTable) (r : Nat → Nat) (h : pt.peers ≠ []) :
    selectionSize pt.peers.length ≤ pt.peers.length ∧
    (GetSelection pt r).1 = pt ∧
    ∃ l : List Peer, l.Subperm pt.peers ∧ (∀ p ∈ l, p ∈ pt.peers) ∧
      l.length = selectionSize pt.peers.length ∧
      (GetSelection pt r).2 = l.map fun p => PeerIDAddress.mk p.pid p.addr := by
  refine ⟨selectionSize_le pt.peers.length, ?_, ?_⟩
  · simp [GetSelection, h]
  · have hperm := fyShuffle_perm r (selectionSize pt.peers.length) 0 pt.peers
    have hsub : ((fyShuffle r 0 (selectionSize pt.peers.length) pt.peers).take
        (selectionSize pt.peers.length)).Subperm pt.peers :=
      ((List.take_sublist (selectionSize pt.peers.length) _).subperm).trans hperm.subperm
    refine ⟨(fyShuffle r 0 (selectionSize pt.peers.length) pt.peers).take
        (selectionSize pt.peers.length), hsub, ?_, ?_, ?_⟩
    · intro p hp
      exact hsub.subset hp
    · rw [List.length_take, hperm.length_eq]
      exact Nat.min_eq_left (selectionSize_le pt.peers.length)
    · simp [GetSelection, h]

/-- Witness for claim C10 at a concrete three-peer table. -/
theorem getSelection_safety_witness :
    selectionSize ptSel.peers.length ≤ ptSel.peers.length ∧
    (GetSelection ptSel rZero).1 = ptSel ∧
    ∃ l : List Peer, l.Subperm ptSel.peers ∧ (∀ p ∈ l, p ∈ ptSel.peers) ∧
      l.length = selectionSize ptSel.peers.length ∧
      (GetSelection ptSel rZero).2 = l.map fun p => PeerIDAddress.mk p.pid p.addr :=
  getSelection_safety ptSel rZero (by decide)

/-- Concrete peer for claim C1's failing input. -/
def pA : Peer := ⟨"a", 1, true, false, false⟩

/-- Claim C1 (code bug): the sequence AddPeer(pA); PurgeOldestPeer() from the
empty table leaves pA in the address map while the ordered list and the
identity map no longer contain it — `PurgeOldestPeer` never updates
`addrMap`, so the three views do not stay consistent. -/
theorem purge_breaks_view_consistency :
    (runOps [PTOp.add pA, PTOp.purge]).peers = [] ∧
    lookupA (runOps [PTOp.add pA, PTOp.purge]).addrMap 1 = some pA ∧
    ¬ viewsConsistent (runOps [PTOp.add pA, PTOp.purge]) := by
  decide

/-!
The sync manager (`netsync`): message classification, inventory serving,
data serving, and the vote handler.  External collaborators (hex codec,
`chain.FindBlock`, RLP encode/decode) are oracles collected in `SyncEnv`;
the dispatcher calls `SendInventory`/`SendData` and the request-manager calls
`AddHash`/`AddBlock` and `consumer.AddMessage` are the handlers' return
values.  Hashes are byte lists (`List Nat`); hash strings are `String`.
-/

/-- The logical channels the sync manager subscribes to. -/
inductive ChannelID where
  | header | block | proposal | cc | vote
deriving DecidableEq, Repr

/-- A chain block as the sync manager reads it: the recorded children
(`block.Children`, hashes) plus an abstract tag standing for the rest of the
block's content. -/
structure Block where
  children : List (List Nat)
  tag : Nat
deriving DecidableEq, Repr

/-- `dispatcher.InventoryRequest{ChannelID, Start, End}`. -/
structure InvRequest where
  channelID : ChannelID
  start : String
  endStr : String
deriving DecidableEq, Repr

/-- `dispatcher.InventoryResponse{ChannelID, Entries}`. -/
structure InvResponse where
  channelID : ChannelID
  entries : List String
deriving DecidableEq, Repr

/-- `dispatcher.DataRequest{ChannelID, Entries}`. -/
structure DataRequest where
  channelID : ChannelID
  entries : List String
deriving DecidableEq, Repr

/-- `dispatcher.DataResponse{ChannelID, Payload}`. -/
structure DataResponse where
  channelID : ChannelID
  payload : List Nat
deriving DecidableEq, Repr

/-- The block reference inside a vote (`vote.Block.Hash`). -/
structure BlockRef where
  hash : List Nat
deriving DecidableEq, Repr

/-- A consensus vote: an optional block reference plus abstract content. -/
structure Vote where
  block : Option BlockRef
  val : Nat
deriving DecidableEq, Repr

/-- A commit certificate: the votes it aggregates. -/
structure CommitCertificate where
  votes : List Vote
deriving DecidableEq, Repr

/-- A proposal: an optional commit certificate and a block. -/
structure Proposal where
  commitCert : Option CommitCertificate
  block : Block
deriving DecidableEq, Repr

/-- The sync manager's external collaborators: the hex codec
(`hex.DecodeString` / `hex.EncodeToString`), the local chain
(`chain.FindBlock`, `nil` error embedded as `none`), and the RLP codec
(`rlp.EncodeToBytes` / `rlp.DecodeBytes` per payload type). -/
structure SyncEnv where
  decodeHex : String → Option (List Nat)
  encodeHex : List Nat → String
  findBlock : List Nat → Option Block
  rlpEncode : Block → Option (List Nat)
  decodeBlock : List Nat → Option Block
  decodeVote : List Nat → Option Vote
  decodeProposal : List Nat → Option Proposal

/-- The chain walk of `handleInvRequest` with `k` loop iterations left:
each iteration appends the current hash, looks the block up (a lookup
failure aborts the whole request, `none`), stops at a childless block,
steps to the first child, and — when that child is the end hash — appends
the end hash as an extra entry and stops. -/
def invWalk (env : SyncEnv) (endB : List Nat) : Nat → List Nat → List String → Option (List String)
  | 0, _, acc => some acc
  | k+1, curr, acc =>
    let acc2 := acc ++ [env.encodeHex curr]
    match env.findBlock curr with
    | none => none
    | some block =>
      match block.children with
      | [] => some acc2
      | child :: _ =>
        if child = endB then some (acc2 ++ [env.encodeHex endB])
        else invWalk env endB k child acc2

/-- `handleInvRequest`, parameterised by the loop bound `M`.  The constant
`dispatcher.MaxInventorySize` lives outside this repository slice and is
modelled from the spec as the parameter `M` ("a fixed maximum number of
hashes per request").  Result: the inventory response sent to the origin
peer, or `none` when the request is aborted (empty or undecodable start/end,
failed lookup) or on a non-block channel. -/
def handleInvRequest (M : Nat) (env : SyncEnv) (req : InvRequest) : Option InvResponse :=
  match req.channelID with
  | .block =>
    if req.start = "" then none
    else
      match env.decodeHex req.start with
      | none => none
      | some curr =>
        match env.decodeHex req.endStr with
        | none => none
        | some endB =>
          match invWalk env endB M curr [] with
          | none => none
          | some blocks => some ⟨.block, blocks⟩
  | _ => none

/-- The per-hash pipeline of `handleDataRequest`: decode the hash string,
find the block locally, RLP-encode it, and build the data response. -/
def dataPipeline (env : SyncEnv) (hashStr : String) : Option DataResponse :=
  match env.decodeHex hashStr with
  | none => none
  | some h =>
    match env.findBlock h with
    | none => none
    | some b =>
      match env.rlpEncode b with
      | none => none
      | some payload => some ⟨.block, payload⟩

/-- The `for _, hashStr := range data.Entries` loop of `handleDataRequest`:
each of the three failure points executes `return`, ending the whole loop;
a success sends one data response and continues. -/
def dataLoop (env : SyncEnv) : List String → List DataResponse
  | [] => []
  | h :: rest =>
    match env.decodeHex h with
    | none => []
    | some hb =>
      match env.findBlock hb with
      | none => []
      | some b =>
        match env.rlpEncode b with
        | none => []
        | some payload => ⟨ChannelID.block, payload⟩ :: dataLoop env rest

/-- `handleDataRequest`: serves block-channel requests via `dataLoop`; other
channels are only logged.  Result: the data responses sent to the origin
peer, in order. -/
def handleDataRequest (env : SyncEnv) (req : DataRequest) : List DataResponse :=
  match req.channelID with
  | .block => dataLoop env req.entries
  | _ => []

/-- The `for _, hashStr := range resp.Entries` loop of `handleInvResponse`:
a hash that fails to decode aborts the rest (`return`); otherwise
`AddHash(hash, []string{peerID})` is called.  Result: the `AddHash` calls. -/
def invRespLoop (env : SyncEnv) (peerID : String) : List String → List (List Nat × List String)
  | [] => []
  | h :: rest =>
    match env.decodeHex h with
    | none => []
    | some hb => (hb, [peerID]) :: invRespLoop env peerID rest

/-- `handleInvResponse`: block channel only; other channels are logged. -/
def handleInvResponse (env : SyncEnv) (peerID : String) (resp : InvResponse) :
    List (List Nat × List String) :=
  match resp.channelID with
  | .block => invRespLoop env peerID resp.entries
  | _ => []

/-- `handleVote`: when the vote references a block, `AddHash(hash, []string{})`
is called with an empty candidate set; the vote is always handed to
`consumer.AddMessage`.  Result: (`AddHash` calls, consumed votes). -/
def handleVote (v : Vote) : List (List Nat × List String) × List Vote :=
  (match v.block with
   | some b => [(b.hash, [])]
   | none => [], [v])

/-- `handleBlock`: the block goes to `requestMgr.AddBlock`. -/
def handleBlock (b : Block) : List Block := [b]

/-- `handleCC`: every vote of the certificate goes to `consumer.AddMessage`. -/
def handleCC (cc : CommitCertificate) : List Vote := cc.votes

/-- Effects of `handleDataResponse` and its content handlers:
`requestMgr.AddHash` calls, `requestMgr.AddBlock` calls, votes handed to the
consumption sink. -/
structure DataRespEffects where
  addHashCalls : List (List Nat × List String)
  addBlockCalls : List Block
  consumerVotes : List Vote
deriving DecidableEq, Repr

/-- `handleProposal`: the embedded commit certificate (when present) is
processed first, then the proposal's block. -/
def handleProposal (p : Proposal) : DataRespEffects :=
  ⟨[], handleBlock p.block,
    match p.commitCert with
    | some cc => handleCC cc
    | none => []⟩

/-- `handleDataResponse`: decodes the payload according to its channel and
routes to the block / vote / proposal handler; a decode failure or an
unsupported channel is only logged. -/
def handleDataResponse (env : SyncEnv) (d : DataResponse) : DataRespEffects :=
  match d.channelID with
  | .block =>
    match env.decodeBlock d.payload with
    | none => ⟨[], [], []⟩
    | some b => ⟨[], handleBlock b, []⟩
  | .vote =>
    match env.decodeVote d.payload with
    | none => ⟨[], [], []⟩
    | some v => ⟨(handleVote v).1, [], (handleVote v).2⟩
  | .proposal =>
    match env.decodeProposal d.payload with
    | none => ⟨[], [], []⟩
    | some p => handleProposal p
  | _ => ⟨[], [], []⟩

/-- The payload of an inbound message, as classified by `processMessage`'s
type switch.  `unknown` stands for every payload shape other than the four
recognized ones (the type switch is over an open interface type). -/
inductive MessageContent where
  | invReq : InvRequest → MessageContent
  | invResp : InvResponse → MessageContent
  | dataReq : DataRequest → MessageContent
  | dataResp : DataResponse → MessageContent
  | unknown : Nat → MessageContent
deriving DecidableEq, Repr

/-- `p2ptypes.Message`: origin peer, channel, payload. -/
structure SyncMessage where
  peerID : String
  channelID : ChannelID
  content : MessageContent
deriving DecidableEq, Repr

/-- Outcome of `processMessage`: which handler ran (with its effects), or the
fatal branch (`logger...Panic`, which terminates the process). -/
inductive ProcessOutcome where
  | invReqHandled : Option InvResponse → ProcessOutcome
  | invRespHandled : List (List Nat × List String) → ProcessOutcome
  | dataReqHandled : List DataResponse → ProcessOutcome
  | dataRespHandled : DataRespEffects → ProcessOutcome
  | fatal : ProcessOutcome
deriving DecidableEq, Repr

/-- `processMessage`: the type switch over the four recognized payload
shapes; anything else reaches the fatal branch. -/
def processMessage (M : Nat) (env : SyncEnv) (msg : SyncMessage) : ProcessOutcome :=
  match msg.content with
  | .invReq r => .invReqHandled (handleInvRequest M env r)
  | .invResp r => .invRespHandled (handleInvResponse env msg.peerID r)
  | .dataReq r => .dataReqHandled (handleDataRequest env r)
  | .dataResp r => .dataRespHandled (handleDataResponse env r)
  | .unknown _ => .fatal

/-- Whether an outcome is the fatal branch. -/
def isFatal : ProcessOutcome → Bool
  | .fatal => true
  | _ => false

/-- Whether a payload has one of the four recognized shapes. -/
def isRecognized : MessageContent → Bool
  | .unknown _ => false
  | _ => true

/-- Concrete environment for claim C5: the hash string "aa" decodes, is found
locally and encodes; every other hash string fails to decode. -/
def env5 : SyncEnv :=
  { decodeHex := fun s => if s = "aa" then some [170] else none
    encodeHex := fun _ => ""
    findBlock := fun h => if h = [170] then some ⟨[], 1⟩ else none
    rlpEncode := fun b => some [b.tag]
    decodeBlock := fun _ => none
    decodeVote := fun _ => none
    decodeProposal := fun _ => none }

/-- Concrete data request for claim C5: an undecodable hash followed by a
fully servable one. -/
def req5 : DataRequest := ⟨.block, ["zz", "aa"]⟩

/-- Claim C5 is false: in the request `["zz", "aa"]` the hash "zz" fails to
decode, and the servable hash "aa" after it is NOT served — the loop
`return`s on the first failure instead of skipping the single hash. -/
theorem dataRequest_abort_counterexample :
    ¬ (∀ e ∈ req5.entries, ∀ resp ∈ (dataPipeline env5 e).toList,
        resp ∈ handleDataRequest env5 req5) := by
  decide

/-- Claim C5 (amended): a failing hash ends processing of the whole request,
so exactly the hashes in the longest fully-servable leading run of the entry
list are served, each with its own data response, in order. -/
theorem handleDataRequest_upto_first_failure (env : SyncEnv) (entries : List String) :
    handleDataRequest env ⟨ChannelID.block, entries⟩ =
      (entries.takeWhile fun e => (dataPipeline env e).isSome).filterMap
        (dataPipeline env) := by
  show dataLoop env entries = _
  induction entries with
  | nil => rfl
  | cons h rest ih =>
    cases hd : env.decodeHex h with
    | none => simp [dataLoop, hd, List.takeWhile_cons, dataPipeline]
    | some hb =>
      cases hf : env.findBlock hb with
      | none => simp [dataLoop, hd, hf, List.takeWhile_cons, dataPipeline]
      | some b =>
        cases he : env.rlpEncode b with
        | none => simp [dataLoop, hd, hf, he, List.takeWhile_cons, dataPipeline]
        | some payload =>
          simp [dataLoop, hd, hf, he, List.takeWhile_cons, dataPipeline, ih]

/-- Concrete environment for claims C6 and C7: a three-block chain
aa -> bb -> cc (hashes [10] -> [11] -> [12]), each block's first child being
the next one, cc childless. -/
def env6 : SyncEnv :=
  { decodeHex := fun s =>
      if s = "aa" then some [10] else if s = "bb" then some [11]
      else if s = "cc" then some [12] else none
    encodeHex := fun h =>
      if h = [10] then "aa" else if h = [11] then "bb"
      else if h = [12] then "cc" else ""
    findBlock := fun h =>
      if h = [10] then some ⟨[[11]], 0⟩
      else if h = [11] then some ⟨[[12]], 0⟩
      else if h = [12] then some ⟨[], 0⟩ else none
    rlpEncode := fun b => some [b.tag]
    decodeBlock := fun _ => none
    decodeVote := fun _ => none
    decodeProposal := fun _ => none }

/-- Concrete inventory request for claim C6. -/
def req6 : InvRequest := ⟨.block, "aa", "cc"⟩

/-- Claim C6 is false: with loop bound 2, walking aa -> bb and reaching the
end hash cc on the final permitted iteration sends a response with 3 entries
— one more than the bound (the end hash is appended as an extra entry). -/
theorem invResponse_exceeds_bound_counterexample :
    handleInvRequest 2 env6 req6 = some ⟨.block, ["aa", "bb", "cc"]⟩ ∧
    ¬ (∀ resp : InvResponse, handleInvRequest 2 env6 req6 = some resp →
        resp.entries.length ≤ 2) := by
  refine ⟨by decide, fun hclaim => ?_⟩
  exact absurd (hclaim ⟨.block, ["aa", "bb", "cc"]⟩ (by decide)) (by decide)

/-- Each `invWalk` iteration appends one entry, and reaching the end hash
appends one more, so a completed walk of `k` iterations adds at most `k + 1`
entries to the accumulator. -/
theorem invWalk_length (env : SyncEnv) (endB : List Nat) :
    ∀ (k : Nat) (curr : List Nat) (acc out : List String),
      invWalk env endB k curr acc = some out → out.length ≤ acc.length + k + 1 := by
  intro k
  induction k with
  | zero =>
    intro curr acc out h
    simp only [invWalk, Option.some.injEq] at h
    subst h
    omega
  | succ k ih =>
    intro curr acc out h
    simp only [invWalk] at h
    split at h
    · exact absurd h (by simp)
    · split at h
      · simp only [Option.some.injEq] at h
        subst h
        simp only [List.length_append, List.length_singleton]
        omega
      · split at h
        · simp only [Option.some.injEq] at h
          subst h
          simp only [List.length_append, List.length_singleton]
          omega
        · rename_i block hfind child cs hchildren hne
          have hb := ih child (acc ++ [env.encodeHex curr]) out h
          simp only [List.length_append, List.length_singleton] at hb
          omega

/-- Claim C6 (amended): every inventory response actually sent contains at
most `M + 1` entries, where `M` is the loop bound (dispatcher's maximum
inventory size); the `+ 1` is reached exactly when the end hash is found on
the final permitted iteration. -/
theorem handleInvRequest_size_bound (M : Nat) (env : SyncEnv) (req : InvRequest)
    (resp : InvResponse) (h : handleInvRequest M env req = some resp) :
    resp.entries.length ≤ M + 1 := by
  obtain ⟨ch, s, e⟩ := req
  cases ch with
  | block =>
    simp only [handleInvRequest] at h
    by_cases hs : s = ""
    · rw [if_pos hs] at h; exact absurd h (by simp)
    · rw [if_neg hs] at h
      split at h
      · exact absurd h (by simp)
      · split at h
        · exact absurd h (by simp)
        · split at h
          · exact absurd h (by simp)
          · rename_i o1 curr hds o2 endB hde o3 blocks hw
            simp only [Option.some.injEq] at h
            subst h
            have hb := invWalk_length env endB M curr [] blocks hw
            simpa using hb
  | header => exact absurd h (by simp [handleInvRequest])
  | proposal => exact absurd h (by simp [handleInvRequest])
  | cc => exact absurd h (by simp [handleInvRequest])
  | vote => exact absurd h (by simp [handleInvRequest])

/-- The concrete over-long response of the C6 counterexample. -/
def resp6 : InvResponse := ⟨.block, ["aa", "bb", "cc"]⟩

/-- Witness for the amended claim C6 at the concrete chain: the 3-entry
response respects the bound 2 + 1. -/
theorem handleInvRequest_size_bound_witness : resp6.entries.length ≤ 2 + 1 :=
  handleInvRequest_size_bound 2 env6 req6 resp6 (by decide)

/-- Concrete inventory request for claim C7: start hash = end hash = "aa",
whose block has a child. -/
def req7 : InvRequest := ⟨.block, "aa", "aa"⟩

/-- Claim C7 is false: with start = end = "aa" (decodable, block present),
the walk only compares each *child* against the end hash, so it runs past
the start block and the response has 3 entries instead of 1. -/
theorem invRequest_start_eq_end_counterexample :
    handleInvRequest 5 env6 req7 = some ⟨.block, ["aa", "bb", "cc"]⟩ ∧
    ¬ (∀ resp : InvResponse, handleInvRequest 5 env6 req7 = some resp →
        resp.entries = ["aa"]) := by
  refine ⟨by decide, fun hclaim => ?_⟩
  exact absurd (hclaim ⟨.block, ["aa", "bb", "cc"]⟩ (by decide)) (by decide)

/-- Claim C7 (amended): an inventory request whose start hash equals its end
hash (both decodable, start block present) returns the single-element
response of that hash exactly when the start block has no recorded children
(otherwise the walk steps past it). -/
theorem handleInvRequest_start_eq_end (M : Nat) (env : SyncEnv) (s : String)
    (curr : List Nat) (b : Block)
    (hs : s ≠ "") (hdec : env.decodeHex s = some curr)
    (hfind : env.findBlock curr = some b) (hleaf : b.children = [])
    (henc : env.encodeHex curr = s) (hM : 0 < M) :
    handleInvRequest M env ⟨.block, s, s⟩ = some ⟨.block, [s]⟩ := by
  obtain ⟨k, rfl⟩ : ∃ k, M = k + 1 := ⟨M - 1, by omega⟩
  simp only [handleInvRequest, if_neg hs, hdec, invWalk, hfind, hleaf, henc,
    List.nil_append]

/-- Witness for the amended claim C7: the childless block "cc" requested with
start = end = "cc" yields exactly `["cc"]`. -/
theorem handleInvRequest_start_eq_end_witness :
    handleInvRequest 5 env6 ⟨ChannelID.block, "cc", "cc"⟩ =
      some ⟨ChannelID.block, ["cc"]⟩ :=
  handleInvRequest_start_eq_end 5 env6 "cc" [12] ⟨[], 0⟩ (by decide) (by decide)
    (by decide) (by decide) (by decide) (by decide)

/-- Claim C8: `handleVote` always forwards the vote to the consumption sink,
and registers the referenced block's hash with an empty candidate-peer set
exactly when the vote references a block. -/
theorem handleVote_spec (v : Vote) :
    (handleVote v).2 = [v] ∧
    ((handleVote v).1 ≠ [] ↔ v.block.isSome = true) ∧
    (∀ b, v.block = some b → (handleVote v).1 = [(b.hash, [])]) ∧
    (v.block = none → (handleVote v).1 = []) := by
  refine ⟨rfl, ?_, ?_, ?_⟩
  · cases hb : v.block <;> simp [handleVote, hb]
  · intro b hb
    simp [handleVote, hb]
  · intro hb
    simp [handleVote, hb]

/-- Concrete vote referencing a block, for the claim C8 witness. -/
def vWit : Vote := ⟨some ⟨[5]⟩, 0⟩

/-- Witness for claim C8: a vote referencing block hash [5] is forwarded and
produces the AddHash call with an empty candidate set. -/
theorem handleVote_spec_witness :
    (handleVote vWit).2 = [vWit] ∧ (handleVote vWit).1 = [([5], [])] :=
  ⟨(handleVote_spec vWit).1, (handleVote_spec vWit).2.2.1 ⟨[5]⟩ rfl⟩

/-- Claim C9: `processMessage` reaches the fatal branch exactly on payloads
of none of the four recognized shapes; every recognized payload is
dispatched to its handler without reaching it. -/
theorem processMessage_fatal_iff_unrecognized (M : Nat) (env : SyncEnv)
    (msg : SyncMessage) :
    isFatal (processMessage M env msg) = !(isRecognized msg.content) := by
  obtain ⟨pid, ch, c⟩ := msg
  cases c <;> rfl

end ThetaSync
